import Mathlib

/-!
# Verification of the `migrate` source-rewriting command (`gdsfactory/cli.py`)

This file shallowly embeds the `migrate` command of `src/gdsfactory/cli.py`:

* the two-pass regular-expression rewrite over the fixed catalogue
  `to_be_replaced` of 15 legacy identifier names
  (`pattern1 = \b(d\.center|...)\b`, `pattern2 = \b(center|...)\b`,
  replacement `d\1`, applied as `pattern2.sub(replacement, pattern1.sub(replacement, content))`),
* the per-file driver logic (write / notice / diff emission for the four
  branches of the command), and
* the output-path resolution at the head of the command.

Python `re` specifics that the embedding relies on are modelled explicitly:

* `\w` (hence `\b`) is modelled by `wordChar` (letters, digits, underscore;
  the texts of interest are ASCII source code);
* both compiled patterns have the shape `\b(A1|...|An)\b` where every
  alternative `Ai` starts and ends with a `\w` character, so the leading
  `\b` holds at a position exactly when the preceding character is not a
  word character (`prevWord = false`), and the trailing `\b` holds exactly
  when the next character is absent or not a word character (`endBoundary`);
* `re.sub` scans left to right; at each position the alternatives are tried
  in pattern order, an alternative succeeding only if the literal matches
  and the trailing `\b` holds (the engine backtracks into the alternation
  when the trailing `\b` fails); a match consumes its text and scanning
  resumes immediately after it.
-/

/-- Python `\w` for the source texts at hand: letters, digits, underscore. -/
def wordChar (c : Char) : Bool := c.isAlpha || c.isDigit || c = '_'

/-- The catalogue of legacy names, in source listing order
(`to_be_replaced` in `cli.py`; the Python value is a `set`, whose iteration
order is unspecified — order-irrelevance is proved below). -/
def to_be_replaced : List (List Char) :=
  ["center".data, "mirror".data, "move".data, "movex".data, "movey".data,
   "rotate".data, "size_info".data, "x".data, "xmin".data, "xmax".data,
   "xsize".data, "y".data, "ymin".data, "ymax".data, "ysize".data]

/-- Alternatives of `pattern1 = \b(d\.center|d\.mirror|...)\b`:
each legacy name prefixed with the literal characters `d` `.`. -/
def qualOf (names : List (List Char)) : List (List Char) :=
  names.map (fun n => 'd' :: '.' :: n)

def qualAlts : List (List Char) := qualOf to_be_replaced

/-- Alternatives of `pattern2 = \b(center|mirror|...)\b`. -/
def bareAlts : List (List Char) := to_be_replaced

/-- The trailing `\b` of the patterns, evaluated at the text following a
candidate match.  Every alternative ends in a word character, so the
boundary holds iff the next character is absent or not a word character. -/
def endBoundary : List Char → Bool
  | [] => true
  | c :: _ => !wordChar c

/-- Try the alternation `(A1|...|An)\b` at the current position: the first
alternative (in pattern order) that literally matches and is followed by a
word boundary, as the backtracking regex engine would find. -/
def findAlt (alts : List (List Char)) (s : List Char) : Option (List Char) :=
  alts.find? (fun a => a.isPrefixOf s && endBoundary (s.drop a.length))

/-- One left-to-right scan of `re.sub` for a pattern `\b(A1|...|An)\b` with
replacement `d\1`.  `prevWord` records whether the previously scanned
character was a word character (false at the start of the text); since all
alternatives begin with a word character, the leading `\b` holds iff
`prevWord = false`.  A match emits `d` followed by the matched text and
resumes after it.  `fuel` only forces termination; it is instantiated with
the length of the text, and every step consumes at least one character. -/
def subAuxF (alts : List (List Char)) : Nat → Bool → List Char → List Char
  | 0, _, s => s
  | _ + 1, _, [] => []
  | fuel + 1, prevWord, c :: rest =>
    if prevWord then
      c :: subAuxF alts fuel (wordChar c) rest
    else
      match findAlt alts (c :: rest) with
      | some a =>
          'd' :: a ++ subAuxF alts fuel (wordChar (a.getLastD 'd')) ((c :: rest).drop a.length)
      | none => c :: subAuxF alts fuel (wordChar c) rest

/-- `pattern.sub(r"d\1", s)` for a pattern with alternatives `alts`. -/
def subWith (alts : List (List Char)) (s : List Char) : List Char :=
  subAuxF alts s.length false s

/-- `pattern1.sub(replacement, content)` — the qualified pass. -/
def sub1 (s : List Char) : List Char := subWith qualAlts s

/-- `pattern2.sub(replacement, content)` — the bare pass. -/
def sub2 (s : List Char) : List Char := subWith bareAlts s

/-- `new_content = pattern2.sub(replacement, pattern1.sub(replacement, content))`. -/
def migrateText (s : String) : String := ⟨sub2 (sub1 s.data)⟩

/-- The rewrite with the catalogue alternation listed in a given order
(for the order-irrelevance claim). -/
def migrateTextWith (names : List (List Char)) (s : String) : String :=
  ⟨subWith names (subWith (qualOf names) s.data)⟩

example : migrateTextWith to_be_replaced "p.center = (0, 0)\nd.center" = migrateText "p.center = (0, 0)\nd.center" := rfl

/-- C1 -/
example : migrateText "p.center = (0, 0)\nd.center" = "p.dcenter = (0, 0)\ndd.dcenter" := by decide

example : migrateText "recentered" = "recentered" := by decide

example : migrateText "d.movex + xmax" = "dd.dmovex + dxmax" := by decide

/-! ## Basic facts about a single `re.sub` scan -/

theorem subAuxF_cons_true (alts : List (List Char)) (n : Nat) (c : Char) (rest : List Char) :
    subAuxF alts (n + 1) true (c :: rest) = c :: subAuxF alts n (wordChar c) rest := rfl

theorem subAuxF_cons_false (alts : List (List Char)) (n : Nat) (c : Char) (rest : List Char) :
    subAuxF alts (n + 1) false (c :: rest) =
      match findAlt alts (c :: rest) with
      | some a =>
          'd' :: a ++ subAuxF alts n (wordChar (a.getLastD 'd')) ((c :: rest).drop a.length)
      | none => c :: subAuxF alts n (wordChar c) rest := rfl

theorem findAlt_mem {alts : List (List Char)} {s a : List Char}
    (h : findAlt alts s = some a) :
    a ∈ alts ∧ a.isPrefixOf s = true ∧ endBoundary (s.drop a.length) = true := by
  have hmem := List.mem_of_find?_eq_some h
  have hp := List.find?_some h
  simp only [Bool.and_eq_true] at hp
  exact ⟨hmem, hp.1, hp.2⟩

theorem prefix_of_isPrefixOf {a s : List Char} (h : a.isPrefixOf s = true) :
    a ++ s.drop a.length = s := by
  have : a <+: s := by
    have := List.isPrefixOf_iff_prefix.mp h
    exact this
  obtain ⟨t, ht⟩ := this
  subst ht
  rw [List.drop_left]

/-- A scan either returns the text unchanged or strictly lengthens it
(each replacement inserts one `d` in front of the matched text). -/
theorem subAuxF_grow (alts : List (List Char)) :
    ∀ (fuel : Nat) (b : Bool) (s : List Char),
      subAuxF alts fuel b s = s ∨ s.length < (subAuxF alts fuel b s).length := by
  intro fuel
  induction fuel with
  | zero => intro b s; left; rfl
  | succ n ih =>
    intro b s
    cases s with
    | nil => left; rfl
    | cons c rest =>
      cases b with
      | true =>
        rw [subAuxF_cons_true]
        rcases ih (wordChar c) rest with h | h
        · left; rw [h]
        · right; simpa using h
      | false =>
        rw [subAuxF_cons_false]
        cases hfa : findAlt alts (c :: rest) with
        | none =>
          rcases ih (wordChar c) rest with h | h
          · left; rw [h]
          · right; simpa using h
        | some a =>
          right
          obtain ⟨-, hpre, -⟩ := findAlt_mem hfa
          have hlen : a.length ≤ (c :: rest).length := by
            have := prefix_of_isPrefixOf hpre
            calc a.length ≤ a.length + ((c :: rest).drop a.length).length := Nat.le_add_right _ _
              _ = (c :: rest).length := by rw [← List.length_append, this]
          have hrec := ih (wordChar (a.getLastD 'd')) ((c :: rest).drop a.length)
          have hrecge : ((c :: rest).drop a.length).length ≤
              (subAuxF alts n (wordChar (a.getLastD 'd')) ((c :: rest).drop a.length)).length := by
            rcases hrec with h | h
            · rw [h]
            · exact Nat.le_of_lt h
          simp only [List.length_cons, List.length_append]
          have hdrop : ((c :: rest).drop a.length).length = (c :: rest).length - a.length :=
            List.length_drop _ _
          simp only [List.length_cons] at hdrop
          omega

theorem subAuxF_len_ge (alts : List (List Char)) (fuel : Nat) (b : Bool) (s : List Char) :
    s.length ≤ (subAuxF alts fuel b s).length := by
  rcases subAuxF_grow alts fuel b s with h | h
  · rw [h]
  · exact Nat.le_of_lt h

/-- A scan never creates or destroys a character that occurs in no
alternative and is not the marker `d`: in particular newline count is
preserved (each replacement re-emits the matched text verbatim, preceded
by a single `d`). -/
theorem subAuxF_count (alts : List (List Char)) (ch : Char)
    (hch : ∀ a ∈ alts, ch ∉ a) (hd : ch ≠ 'd') :
    ∀ (fuel : Nat) (b : Bool) (s : List Char),
      (subAuxF alts fuel b s).count ch = s.count ch := by
  intro fuel
  induction fuel with
  | zero => intro b s; rfl
  | succ n ih =>
    intro b s
    cases s with
    | nil => rfl
    | cons c rest =>
      cases b with
      | true =>
        rw [subAuxF_cons_true]
        simp only [List.count_cons, ih]
      | false =>
        rw [subAuxF_cons_false]
        cases hfa : findAlt alts (c :: rest) with
        | none => simp only [List.count_cons, ih]
        | some a =>
          obtain ⟨hmem, hpre, -⟩ := findAlt_mem hfa
          have hsplit := prefix_of_isPrefixOf hpre
          have hcnt0 : a.count ch = 0 := List.count_eq_zero.mpr (hch a hmem)
          calc ('d' :: a ++ subAuxF alts n (wordChar (a.getLastD 'd'))
                  ((c :: rest).drop a.length)).count ch
              = a.count ch + ((c :: rest).drop a.length).count ch := by
                simp only [List.cons_append, List.count_cons, List.count_append, ih, hcnt0]
                have hdch : ¬('d' == ch) = true := by
                  simp only [beq_iff_eq]
                  exact Ne.symm hd
                simp [hdch]
            _ = (a ++ (c :: rest).drop a.length).count ch := by
                rw [List.count_append]
            _ = (c :: rest).count ch := by rw [hsplit]

theorem qualAlts_no_nl : ∀ a ∈ qualAlts, '\n' ∉ a := by decide

theorem bareAlts_no_nl : ∀ a ∈ bareAlts, '\n' ∉ a := by decide

/-- C1: with the catalogue rule `center → dcenter`, the input text
`p.center = (0, 0)\nd.center` is rewritten to exactly
`p.dcenter = (0, 0)\ndd.dcenter`: the qualified pass first turns
`d.center` into `dd.center`, then the bare pass rewrites the bare
`center` of `p.center` and the bare `center` re-exposed inside the
step-1 replacement `dd.center`. -/
theorem c1_concrete_cascade :
    migrateText "p.center = (0, 0)\nd.center" = "p.dcenter = (0, 0)\ndd.dcenter" := by
  decide

/-- C10: the rewritten text is at least as long as the original, has the
same number of newline characters (hence the same number of lines), and is
strictly longer whenever it differs from the original. -/
theorem c10_length_lines (s : String) :
    s.length ≤ (migrateText s).length ∧
    (migrateText s).data.count '\n' = s.data.count '\n' ∧
    (migrateText s ≠ s → s.length < (migrateText s).length) := by
  have h1 : sub1 s.data = s.data ∨ s.data.length < (sub1 s.data).length :=
    subAuxF_grow qualAlts s.data.length false s.data
  have h2 : sub2 (sub1 s.data) = sub1 s.data ∨
      (sub1 s.data).length < (sub2 (sub1 s.data)).length :=
    subAuxF_grow bareAlts (sub1 s.data).length false (sub1 s.data)
  have g1 : s.data.length ≤ (sub1 s.data).length :=
    subAuxF_len_ge qualAlts s.data.length false s.data
  have g2 : (sub1 s.data).length ≤ (sub2 (sub1 s.data)).length :=
    subAuxF_len_ge bareAlts (sub1 s.data).length false (sub1 s.data)
  have hml : (migrateText s).length = (sub2 (sub1 s.data)).length := rfl
  have hsl : s.length = s.data.length := rfl
  have hdata : (migrateText s).data = sub2 (sub1 s.data) := rfl
  refine ⟨?_, ?_, ?_⟩
  · rw [hml, hsl]; exact le_trans g1 g2
  · rw [hdata]
    calc (sub2 (sub1 s.data)).count '\n'
        = (sub1 s.data).count '\n' :=
          subAuxF_count bareAlts '\n' bareAlts_no_nl (by decide) _ _ _
      _ = s.data.count '\n' :=
          subAuxF_count qualAlts '\n' qualAlts_no_nl (by decide) _ _ _
  · intro hne
    have hne' : sub2 (sub1 s.data) ≠ s.data := by
      intro h
      apply hne
      apply String.ext
      rw [hdata, h]
    rw [hml, hsl]
    rcases h2 with h2 | h2
    · rcases h1 with h1 | h1
      · exact absurd (h2.trans h1) hne'
      · rw [h2]; exact h1
    · omega

/-- Witness for C10 at a text that changes. -/
theorem c10_length_lines_witness :
    migrateText "a = p.center" ≠ "a = p.center" ∧
    ("a = p.center" : String).length < (migrateText "a = p.center").length :=
  ⟨by decide, (c10_length_lines "a = p.center").2.2 (by decide)⟩

/-! ## C9: the alternation order inside each pattern is irrelevant -/

/-- Syntactic condition on an alternation list making at most one
alternative able to match (with its trailing `\b`) at any given position:
whenever one alternative is a proper prefix of another, the longer one
continues with a word character at the split point (true for identifier
alternatives such as `move`/`movex`), so the trailing boundary of the
shorter alternative fails wherever the longer one is present. -/
def altsDisjoint (alts : List (List Char)) : Prop :=
  ∀ a ∈ alts, ∀ b ∈ alts,
    a.isPrefixOf b = true → a ≠ b → wordChar (b.getD a.length 'd') = true

instance (alts : List (List Char)) : Decidable (altsDisjoint alts) := by
  unfold altsDisjoint
  infer_instance

theorem endBoundary_false_of_proper_prefix {a b s : List Char}
    (hab : a <+: b) (hne : a ≠ b) (hbs : b <+: s)
    (hw : wordChar (b.getD a.length 'd') = true) :
    endBoundary (s.drop a.length) = false := by
  have hlt : a.length < b.length := by
    rcases Nat.lt_or_ge a.length b.length with h | h
    · exact h
    · exact absurd (hab.eq_of_length (Nat.le_antisymm hab.length_le h)) hne
  obtain ⟨t, ht⟩ := hbs
  subst ht
  have hlen : a.length < (b ++ t).length := by
    rw [List.length_append]; omega
  rw [List.drop_eq_getElem_cons hlen]
  have hget : (b ++ t)[a.length] = b[a.length] := List.getElem_append_left hlt
  rw [List.getD_eq_getElem b 'd' hlt] at hw
  simp [endBoundary, hget, hw]

/-- Under `altsDisjoint`, at most one alternative matches at a position. -/
theorem matchAt_unique {alts : List (List Char)} (hdisj : altsDisjoint alts)
    (s : List Char) {a b : List Char} (ha : a ∈ alts) (hb : b ∈ alts)
    (hpa : (a.isPrefixOf s && endBoundary (s.drop a.length)) = true)
    (hpb : (b.isPrefixOf s && endBoundary (s.drop b.length)) = true) : a = b := by
  simp only [Bool.and_eq_true] at hpa hpb
  have has : a <+: s := List.isPrefixOf_iff_prefix.mp hpa.1
  have hbs : b <+: s := List.isPrefixOf_iff_prefix.mp hpb.1
  by_contra hne
  rcases List.prefix_or_prefix_of_prefix has hbs with hab | hba
  · have hw := hdisj a ha b hb (List.isPrefixOf_iff_prefix.mpr hab) hne
    have := endBoundary_false_of_proper_prefix hab hne hbs hw
    rw [this] at hpa
    exact absurd hpa.2 (by simp)
  · have hw := hdisj b hb a ha (List.isPrefixOf_iff_prefix.mpr hba) (Ne.symm hne)
    have := endBoundary_false_of_proper_prefix hba (Ne.symm hne) has hw
    rw [this] at hpb
    exact absurd hpb.2 (by simp)

/-- `find?` only depends on the set of elements when the predicate holds
for at most one of them. -/
theorem find?_congr_of_unique {α : Type} (p : α → Bool) (l₁ l₂ : List α)
    (hmem : ∀ x, x ∈ l₁ ↔ x ∈ l₂)
    (huniq : ∀ x ∈ l₁, ∀ y ∈ l₁, p x = true → p y = true → x = y) :
    l₁.find? p = l₂.find? p := by
  cases h1 : l₁.find? p with
  | none =>
    have hall := List.find?_eq_none.mp h1
    symm
    exact List.find?_eq_none.mpr fun x hx => hall x ((hmem x).mpr hx)
  | some a =>
    have hpa := List.find?_some h1
    have hma := List.mem_of_find?_eq_some h1
    have hsome : (l₂.find? p).isSome = true :=
      List.find?_isSome.mpr ⟨a, (hmem a).mp hma, hpa⟩
    cases h2 : l₂.find? p with
    | none => rw [h2] at hsome; simp at hsome
    | some b =>
      have hpb := List.find?_some h2
      have hmb := List.mem_of_find?_eq_some h2
      rw [huniq a hma b ((hmem b).mpr hmb) hpa hpb]

theorem findAlt_congr {alts₁ alts₂ : List (List Char)}
    (hmem : ∀ x, x ∈ alts₁ ↔ x ∈ alts₂) (hdisj : altsDisjoint alts₁)
    (s : List Char) : findAlt alts₁ s = findAlt alts₂ s :=
  find?_congr_of_unique _ alts₁ alts₂ hmem
    (fun _ hx _ hy hpx hpy => matchAt_unique hdisj s hx hy hpx hpy)

theorem subAuxF_congr {alts₁ alts₂ : List (List Char)}
    (hmem : ∀ x, x ∈ alts₁ ↔ x ∈ alts₂) (hdisj : altsDisjoint alts₁) :
    ∀ (fuel : Nat) (b : Bool) (s : List Char),
      subAuxF alts₁ fuel b s = subAuxF alts₂ fuel b s := by
  intro fuel
  induction fuel with
  | zero => intro b s; rfl
  | succ n ih =>
    intro b s
    cases s with
    | nil => rfl
    | cons c rest =>
      cases b with
      | true => rw [subAuxF_cons_true, subAuxF_cons_true, ih]
      | false =>
        rw [subAuxF_cons_false, subAuxF_cons_false, findAlt_congr hmem hdisj]
        cases findAlt alts₂ (c :: rest) <;> simp only [ih]

theorem altsDisjoint_bare : altsDisjoint to_be_replaced := by decide

theorem altsDisjoint_qual : altsDisjoint qualAlts := by decide

theorem altsDisjoint_of_mem_iff {alts₁ alts₂ : List (List Char)}
    (hmem : ∀ x, x ∈ alts₁ ↔ x ∈ alts₂) (h : altsDisjoint alts₂) :
    altsDisjoint alts₁ :=
  fun a ha b hb hab hne => h a ((hmem a).mp ha) b ((hmem b).mp hb) hab hne

theorem mem_qualOf_iff {names : List (List Char)} {x : List Char}
    (hperm : names.Perm to_be_replaced) : x ∈ qualOf names ↔ x ∈ qualAlts := by
  simp only [qualOf, qualAlts, List.mem_map]
  constructor
  · rintro ⟨n, hn, rfl⟩
    exact ⟨n, hperm.mem_iff.mp hn, rfl⟩
  · rintro ⟨n, hn, rfl⟩
    exact ⟨n, hperm.mem_iff.mpr hn, rfl⟩

theorem migrateTextWith_perm_eq {names : List (List Char)}
    (hperm : names.Perm to_be_replaced) (s : String) :
    migrateTextWith names s = migrateText s := by
  have hqmem : ∀ x, x ∈ qualOf names ↔ x ∈ qualAlts := fun x => mem_qualOf_iff hperm
  have hbmem : ∀ x, x ∈ names ↔ x ∈ to_be_replaced := fun x => hperm.mem_iff
  have hqd : altsDisjoint (qualOf names) := altsDisjoint_of_mem_iff hqmem altsDisjoint_qual
  have hbd : altsDisjoint names := altsDisjoint_of_mem_iff hbmem altsDisjoint_bare
  have hinner : subWith (qualOf names) s.data = subWith qualAlts s.data :=
    subAuxF_congr hqmem hqd s.data.length false s.data
  show (⟨subWith names (subWith (qualOf names) s.data)⟩ : String) = ⟨sub2 (sub1 s.data)⟩
  rw [hinner]
  have houter : subWith names (subWith qualAlts s.data) = subWith to_be_replaced (subWith qualAlts s.data) :=
    subAuxF_congr hbmem hbd (subWith qualAlts s.data).length false (subWith qualAlts s.data)
  rw [houter]
  rfl

/-- C9: compiling the two patterns with the catalogue's legacy names listed
in any order yields the same rewrite function: for any two orderings of the
catalogue and any input text, the rewritten texts coincide (one matchable
alternative per position — the trailing boundary anchor rules out every
proper-prefix alternative such as `move` inside `movex`). -/
theorem c9_alternation_order_irrelevant (l₁ l₂ : List (List Char))
    (h₁ : l₁.Perm to_be_replaced) (h₂ : l₂.Perm to_be_replaced) (s : String) :
    migrateTextWith l₁ s = migrateTextWith l₂ s := by
  rw [migrateTextWith_perm_eq h₁, migrateTextWith_perm_eq h₂]

/-- Witness for C9: the source-listing order against its reverse, on a text
exercising the prefix-related names `move`/`movex`. -/
theorem c9_alternation_order_irrelevant_witness :
    (to_be_replaced.reverse.Perm to_be_replaced ∧
      to_be_replaced.Perm to_be_replaced) ∧
    migrateTextWith to_be_replaced.reverse "d.movex = a.move" =
      migrateTextWith to_be_replaced "d.movex = a.move" :=
  ⟨⟨by decide, by decide⟩,
    c9_alternation_order_irrelevant to_be_replaced.reverse to_be_replaced
      (by decide) (by decide) "d.movex = a.move"⟩

/-! ## A token-level view of the text

Every text decomposes uniquely into maximal runs of word characters
(identifier tokens) separated by single non-word characters.  Both passes
are then characterised on this decomposition, which is the key to the
idempotence and boundary-respect claims. -/

/-- A chunk of text: a (maximal) run of word characters, or one non-word
character. -/
inductive Chunk : Type where
  | tok : List Char → Chunk
  | sep : Char → Chunk
deriving DecidableEq

def renderChunk : Chunk → List Char
  | .tok w => w
  | .sep c => [c]

def render : List Chunk → List Char
  | [] => []
  | ch :: l => renderChunk ch ++ render l

/-- Well-formed chunk: tokens are nonempty word-character runs, separators
are non-word characters. -/
def chunkOk : Chunk → Bool
  | .tok w => !w.isEmpty && w.all wordChar
  | .sep c => !wordChar c

def isTokHead : List Chunk → Bool
  | .tok _ :: _ => true
  | _ => false

/-- Tokens are maximal: no two adjacent tokens. -/
def noAdjTok : List Chunk → Bool
  | .tok _ :: .tok _ :: _ => false
  | _ :: l => noAdjTok l
  | [] => true

def validChunks (l : List Chunk) : Bool := l.all chunkOk && noAdjTok l

/-- Prepend a word character to a chunk list, merging into a leading token. -/
def consTok (c : Char) : List Chunk → List Chunk
  | .tok w :: l => .tok (c :: w) :: l
  | l => .tok [c] :: l

/-- Decompose a text into chunks. -/
def parseChunks : List Char → List Chunk
  | [] => []
  | c :: r => if wordChar c then consTok c (parseChunks r) else .sep c :: parseChunks r

theorem render_consTok (c : Char) (l : List Chunk) :
    render (consTok c l) = c :: render l := by
  cases l with
  | nil => rfl
  | cons ch l' => cases ch <;> rfl

theorem render_parseChunks : ∀ s : List Char, render (parseChunks s) = s := by
  intro s
  induction s with
  | nil => rfl
  | cons c r ih =>
    show render (if wordChar c then consTok c (parseChunks r) else .sep c :: parseChunks r) = _
    by_cases hc : wordChar c
    · rw [if_pos hc, render_consTok, ih]
    · rw [if_neg hc]
      show [c] ++ render (parseChunks r) = c :: r
      rw [ih]; rfl

theorem noAdjTok_cons_sep (c : Char) (l : List Chunk) :
    noAdjTok (.sep c :: l) = noAdjTok l := rfl

theorem noAdjTok_tok_cons {w : List Char} {l : List Chunk} :
    noAdjTok (.tok w :: l) = true → noAdjTok l = true ∧ isTokHead l = false := by
  intro h
  cases l with
  | nil => exact ⟨rfl, rfl⟩
  | cons ch r =>
    cases ch with
    | tok v => exact absurd h (by simp [noAdjTok])
    | sep c => exact ⟨h, rfl⟩

theorem noAdjTok_tok_any (w v : List Char) (l : List Chunk) :
    noAdjTok (.tok w :: l) = noAdjTok (.tok v :: l) := by
  cases l with
  | nil => rfl
  | cons ch r => cases ch <;> rfl

theorem validChunks_cons {ch : Chunk} {l : List Chunk}
    (h : validChunks (ch :: l) = true) : chunkOk ch = true ∧ validChunks l = true := by
  simp only [validChunks, List.all_cons, Bool.and_eq_true] at h
  obtain ⟨⟨hok, hall⟩, hadj⟩ := h
  have hadjl : noAdjTok l = true := by
    cases ch with
    | tok w => exact (noAdjTok_tok_cons hadj).1
    | sep c => rwa [noAdjTok_cons_sep] at hadj
  exact ⟨hok, by simp [validChunks, hall, hadjl]⟩

theorem validChunks_tok_head {w : List Char} {l : List Chunk}
    (h : validChunks (.tok w :: l) = true) :
    w ≠ [] ∧ (∀ c ∈ w, wordChar c = true) ∧ isTokHead l = false := by
  obtain ⟨hok, -⟩ := validChunks_cons h
  simp only [chunkOk, Bool.and_eq_true, List.all_eq_true] at hok
  have hadj : noAdjTok (Chunk.tok w :: l) = true := by
    simp only [validChunks, Bool.and_eq_true] at h
    exact h.2
  refine ⟨?_, hok.2, (noAdjTok_tok_cons hadj).2⟩
  intro hnil
  rw [hnil] at hok
  exact absurd hok.1 (by simp)

/-- After a valid chunk list whose head is not a token, the rendered text
starts with a non-word character (or is empty). -/
theorem render_head_boundary {l : List Chunk} (hv : validChunks l = true)
    (hnt : isTokHead l = false) :
    render l = [] ∨ wordChar ((render l).headD 'd') = false := by
  cases l with
  | nil => left; rfl
  | cons ch r =>
    cases ch with
    | tok w => exact absurd hnt (by simp [isTokHead])
    | sep c =>
      right
      obtain ⟨hok, -⟩ := validChunks_cons hv
      simp only [chunkOk, Bool.not_eq_true'] at hok
      simpa [render, renderChunk] using hok

theorem consTok_of_not_tokHead {l : List Chunk} (h : isTokHead l = false) (c : Char) :
    consTok c l = .tok [c] :: l := by
  cases l with
  | nil => rfl
  | cons ch r =>
    cases ch with
    | tok w => exact absurd h (by simp [isTokHead])
    | sep c' => rfl

theorem parseChunks_not_tokHead {t : List Char}
    (ht : t = [] ∨ wordChar (t.headD 'd') = false) :
    isTokHead (parseChunks t) = false := by
  cases t with
  | nil => rfl
  | cons c0 t' =>
    have hc0 : wordChar c0 = false := by
      rcases ht with ht | ht
      · exact absurd ht (by simp)
      · simpa using ht
    show isTokHead (if wordChar c0 then _ else .sep c0 :: parseChunks t') = false
    rw [if_neg (by simp [hc0])]
    rfl

/-- A word run followed by a boundary parses as a single leading token. -/
theorem parseChunks_word_run :
    ∀ (w t : List Char), w ≠ [] → (∀ c ∈ w, wordChar c = true) →
      (t = [] ∨ wordChar (t.headD 'd') = false) →
      parseChunks (w ++ t) = .tok w :: parseChunks t := by
  intro w
  induction w with
  | nil => intro t h; exact absurd rfl h
  | cons c w' ih =>
    intro t _ hw ht
    have hc : wordChar c = true := hw c (List.mem_cons_self c w')
    have htail : ∀ x ∈ w', wordChar x = true := fun x hx => hw x (List.mem_cons_of_mem c hx)
    show (if wordChar c then consTok c (parseChunks (w' ++ t))
          else .sep c :: parseChunks (w' ++ t)) = .tok (c :: w') :: parseChunks t
    rw [if_pos hc]
    cases hw' : w' with
    | nil =>
      subst hw'
      show consTok c (parseChunks t) = .tok [c] :: parseChunks t
      exact consTok_of_not_tokHead (parseChunks_not_tokHead ht) c
    | cons c1 w'' =>
      rw [← hw', ih t (by rw [hw']; simp) htail ht]
      rfl

/-- Parsing is a left inverse of rendering on valid chunk lists. -/
theorem parseChunks_render {l : List Chunk} (hv : validChunks l = true) :
    parseChunks (render l) = l := by
  induction l with
  | nil => rfl
  | cons ch l' ih =>
    obtain ⟨hok, hv'⟩ := validChunks_cons hv
    cases ch with
    | sep c =>
      simp only [chunkOk, Bool.not_eq_true'] at hok
      show (if wordChar c then consTok c (parseChunks ([] ++ render l'))
            else .sep c :: parseChunks ([] ++ render l')) = _
      rw [if_neg (by simp [hok])]
      rw [show ([] : List Char) ++ render l' = render l' from rfl, ih hv']
    | tok w =>
      obtain ⟨hne, hw, hnt⟩ := validChunks_tok_head hv
      show parseChunks (w ++ render l') = _
      rw [parseChunks_word_run w (render l') hne hw (render_head_boundary hv' hnt), ih hv']

/-- Parsing always yields a valid decomposition. -/
theorem validChunks_parseChunks : ∀ s : List Char, validChunks (parseChunks s) = true := by
  intro s
  induction s with
  | nil => rfl
  | cons c r ih =>
    show validChunks (if wordChar c then consTok c (parseChunks r) else .sep c :: parseChunks r) = true
    by_cases hc : wordChar c
    · rw [if_pos hc]
      simp only [validChunks, Bool.and_eq_true] at ih
      obtain ⟨hall, hadj⟩ := ih
      cases hp : parseChunks r with
      | nil => simp [consTok, validChunks, chunkOk, noAdjTok, hc]
      | cons ch l' =>
        rw [hp] at hall hadj
        simp only [List.all_cons, Bool.and_eq_true] at hall
        cases ch with
        | tok w2 =>
          show validChunks (.tok (c :: w2) :: l') = true
          simp only [validChunks, List.all_cons, Bool.and_eq_true]
          refine ⟨⟨?_, hall.2⟩, ?_⟩
          · have := hall.1
            simp only [chunkOk, Bool.and_eq_true, List.all_eq_true] at this ⊢
            exact ⟨by simp, fun x hx => by
              rcases List.mem_cons.mp hx with h | h
              · subst h; exact hc
              · exact this.2 x h⟩
          · rw [noAdjTok_tok_any (c :: w2) w2]
            exact hadj
        | sep c' =>
          show validChunks (.tok [c] :: .sep c' :: l') = true
          simp only [validChunks, List.all_cons, Bool.and_eq_true] at hall ⊢
          exact ⟨⟨by simp [chunkOk, hc], hall.1, hall.2⟩, by
            show noAdjTok (.sep c' :: l') = true
            exact hadj⟩
    · rw [if_neg hc]
      simp only [validChunks, List.all_cons, Bool.and_eq_true] at ih ⊢
      have hc' : wordChar c = false := by simpa using hc
      exact ⟨⟨by simp [chunkOk, hc'], ih.1⟩, by rw [noAdjTok_cons_sep]; exact ih.2⟩

/-! ## Where the two patterns can match -/

theorem bare_names_word : ∀ n ∈ to_be_replaced, n ≠ [] ∧ ∀ c ∈ n, wordChar c = true := by
  decide

theorem qualAlts_head_word : ∀ a ∈ qualAlts, wordChar (a.headD ' ') = true := by decide

theorem qualAlts_nonnil : ∀ a ∈ qualAlts, a ≠ [] := by decide

theorem bareAlts_head_word : ∀ a ∈ bareAlts, wordChar (a.headD ' ') = true := by decide

theorem bareAlts_nonnil : ∀ a ∈ bareAlts, a ≠ [] := by decide

theorem subAuxF_nil (alts : List (List Char)) (fuel : Nat) (b : Bool) :
    subAuxF alts fuel b [] = [] := by cases fuel <;> rfl

/-- Scanning past a non-word character just copies it: no alternative can
start there, since all alternatives start with a word character. -/
theorem subAuxF_nonword (alts : List (List Char))
    (hhead : ∀ a ∈ alts, wordChar (a.headD ' ') = true)
    (hnil : ∀ a ∈ alts, a ≠ [])
    (fuel : Nat) (b : Bool) (c : Char) (rest : List Char) (hc : wordChar c = false) :
    subAuxF alts (fuel + 1) b (c :: rest) = c :: subAuxF alts fuel false rest := by
  cases b with
  | true => rw [subAuxF_cons_true, hc]
  | false =>
    rw [subAuxF_cons_false]
    have hnone : findAlt alts (c :: rest) = none := by
      apply List.find?_eq_none.mpr
      intro a ha hp
      simp only [Bool.and_eq_true] at hp
      obtain ⟨a0, a', rfl⟩ : ∃ a0 a', a = a0 :: a' := by
        cases a with
        | nil => exact absurd rfl (hnil _ ha)
        | cons a0 a' => exact ⟨a0, a', rfl⟩
      have := (List.cons_prefix_cons.mp (List.isPrefixOf_iff_prefix.mp hp.1)).1
      have hw := hhead _ ha
      rw [List.headD] at hw
      rw [this] at hw
      rw [hw] at hc
      exact absurd hc (by simp)
    rw [hnone, hc]

/-- Copying a run of word characters with the previous-character flag set:
no match can start inside the run. -/
theorem subAuxF_run (alts : List (List Char)) :
    ∀ (w : List Char), (∀ c ∈ w, wordChar c = true) →
      ∀ (t : List Char) (fuel : Nat),
        subAuxF alts (w.length + fuel) true (w ++ t) = w ++ subAuxF alts fuel true t := by
  intro w
  induction w with
  | nil => intro _ t fuel; simp
  | cons c w' ih =>
    intro hw t fuel
    have hc : wordChar c = true := hw c (List.mem_cons_self c w')
    have hlen : (c :: w').length + fuel = (w'.length + fuel) + 1 := by
      simp only [List.length_cons]; omega
    rw [hlen]
    show subAuxF alts ((w'.length + fuel) + 1) true (c :: (w' ++ t)) = _
    rw [subAuxF_cons_true, hc, ih (fun x hx => hw x (List.mem_cons_of_mem c hx)) t fuel]
    rfl

theorem getLastD_mem : ∀ {w : List Char}, w ≠ [] → ∀ d : Char, w.getLastD d ∈ w := by
  intro w
  induction w with
  | nil => intro h; exact absurd rfl h
  | cons c w' ih =>
    intro _ d
    rw [List.getLastD_cons]
    cases hw' : w' with
    | nil => simp
    | cons c1 w'' =>
      rw [← hw']
      exact List.mem_cons_of_mem c (ih (by rw [hw']; simp) c)

/-- If a catalogue-name-shaped word `m` matches (with trailing boundary) at
the start of a token `n` followed by a boundary, then `m` is the whole
token. -/
theorem name_eq_token {m n u : List Char}
    (hm : ∀ c ∈ m, wordChar c = true)
    (hn : ∀ c ∈ n, wordChar c = true)
    (hu : u = [] ∨ wordChar (u.headD 'd') = false)
    (hpre : m <+: n ++ u)
    (hbd : endBoundary ((n ++ u).drop m.length) = true) : m = n := by
  by_cases heq : m = n
  · exact heq
  · exfalso
    have hnp : n <+: n ++ u := List.prefix_append n u
    rcases List.prefix_or_prefix_of_prefix hpre hnp with hmn | hnm
    · have hlt : m.length < n.length :=
        lt_of_le_of_ne hmn.length_le (fun he => heq (hmn.eq_of_length he))
      have hw : wordChar (n.getD m.length 'd') = true := by
        rw [List.getD_eq_getElem n 'd' hlt]
        exact hn _ (List.getElem_mem hlt)
      have := endBoundary_false_of_proper_prefix hmn heq hnp hw
      rw [this] at hbd
      exact absurd hbd (by simp)
    · obtain ⟨m', rfl⟩ := hnm
      have hm' : m' ≠ [] := fun h => heq (by rw [h, List.append_nil])
      have hmu : m' <+: u := (List.prefix_append_right_inj n).mp hpre
      obtain ⟨c0, m'', rfl⟩ : ∃ c0 m'', m' = c0 :: m'' := by
        cases m' with
        | nil => exact absurd rfl hm'
        | cons c0 m'' => exact ⟨c0, m'', rfl⟩
      obtain ⟨u', hu'⟩ := hmu
      have hc0 : wordChar c0 = true := hm c0 (by simp)
      rcases hu with h | h
      · rw [← hu'] at h; exact absurd h (by simp)
      · rw [← hu'] at h
        simp only [List.cons_append, List.headD] at h
        rw [hc0] at h
        exact absurd h (by simp)

/-- The bare pattern matches a token that is exactly a catalogue name. -/
theorem findAlt_bare_some {w u : List Char} (hw : w ∈ to_be_replaced)
    (hu : u = [] ∨ wordChar (u.headD 'd') = false) :
    findAlt bareAlts (w ++ u) = some w := by
  have hpred : (w.isPrefixOf (w ++ u) && endBoundary ((w ++ u).drop w.length)) = true := by
    simp only [Bool.and_eq_true]
    constructor
    · exact List.isPrefixOf_iff_prefix.mpr (List.prefix_append w u)
    · rw [List.drop_left]
      rcases hu with h | h
      · rw [h]; rfl
      · cases u with
        | nil => rfl
        | cons c0 u' => simp only [List.headD] at h; simp [endBoundary, h]
  cases h2 : findAlt bareAlts (w ++ u) with
  | none => exact absurd hpred (List.find?_eq_none.mp h2 w hw)
  | some b =>
    obtain ⟨hbmem, hbpre, hbbd⟩ := findAlt_mem h2
    have hb : b = w :=
      matchAt_unique altsDisjoint_bare (w ++ u) hbmem hw
        (by simp [hbpre, hbbd]) hpred
    rw [hb]

/-- The bare pattern does not match at a token that is not a catalogue
name (boundary respect: any catalogue name occurring inside the token is
not bounded on both sides). -/
theorem findAlt_bare_none {w u : List Char} (hwword : ∀ c ∈ w, wordChar c = true)
    (hnw : w ∉ to_be_replaced)
    (hu : u = [] ∨ wordChar (u.headD 'd') = false) :
    findAlt bareAlts (w ++ u) = none := by
  cases h2 : findAlt bareAlts (w ++ u) with
  | none => rfl
  | some b =>
    obtain ⟨hbmem, hbpre, hbbd⟩ := findAlt_mem h2
    have hbw : ∀ c ∈ b, wordChar c = true := (bare_names_word b hbmem).2
    have : b = w :=
      name_eq_token hbw hwword hu (List.isPrefixOf_iff_prefix.mp hbpre) hbbd
    exact absurd (this ▸ hbmem) hnw

theorem mem_qualAlts {a : List Char} (h : a ∈ qualAlts) :
    ∃ n ∈ to_be_replaced, a = 'd' :: '.' :: n := by
  simp only [qualAlts, qualOf, List.mem_map] at h
  obtain ⟨n, hn, rfl⟩ := h
  exact ⟨n, hn, rfl⟩

theorem drop_two_cons {n u : List Char} :
    ('d' :: '.' :: (n ++ u)).drop ('d' :: '.' :: n).length = u := by
  simp only [List.length_cons, List.drop_succ_cons]
  rw [List.drop_left]

/-- The qualified pattern matches `d.n` for a catalogue name `n` at a
boundary. -/
theorem findAlt_qual_some {n u : List Char} (hn : n ∈ to_be_replaced)
    (hu : u = [] ∨ wordChar (u.headD 'd') = false) :
    findAlt qualAlts ('d' :: '.' :: (n ++ u)) = some ('d' :: '.' :: n) := by
  have hmem : ('d' :: '.' :: n) ∈ qualAlts := by
    simp only [qualAlts, qualOf, List.mem_map]
    exact ⟨n, hn, rfl⟩
  have hpred : (('d' :: '.' :: n).isPrefixOf ('d' :: '.' :: (n ++ u)) &&
      endBoundary (('d' :: '.' :: (n ++ u)).drop ('d' :: '.' :: n).length)) = true := by
    simp only [Bool.and_eq_true]
    constructor
    · apply List.isPrefixOf_iff_prefix.mpr
      rw [List.cons_prefix_cons, List.cons_prefix_cons]
      exact ⟨rfl, rfl, List.prefix_append n u⟩
    · rw [drop_two_cons]
      rcases hu with h | h
      · rw [h]; rfl
      · cases u with
        | nil => rfl
        | cons c0 u' => simp only [List.headD] at h; simp [endBoundary, h]
  cases h2 : findAlt qualAlts ('d' :: '.' :: (n ++ u)) with
  | none => exact absurd hpred (List.find?_eq_none.mp h2 _ hmem)
  | some b =>
    obtain ⟨hbmem, hbpre, hbbd⟩ := findAlt_mem h2
    have hb : b = 'd' :: '.' :: n :=
      matchAt_unique altsDisjoint_qual _ hbmem hmem (by simp [hbpre, hbbd]) hpred
    rw [hb]

/-- The qualified pattern does not match `d.` followed by a token that is
not a catalogue name. -/
theorem findAlt_qual_none_name {n u : List Char}
    (hnword : ∀ c ∈ n, wordChar c = true) (hn : n ∉ to_be_replaced)
    (hu : u = [] ∨ wordChar (u.headD 'd') = false) :
    findAlt qualAlts ('d' :: '.' :: (n ++ u)) = none := by
  cases h2 : findAlt qualAlts ('d' :: '.' :: (n ++ u)) with
  | none => rfl
  | some b =>
    obtain ⟨hbmem, hbpre, hbbd⟩ := findAlt_mem h2
    obtain ⟨m, hm, rfl⟩ := mem_qualAlts hbmem
    have hmpre : m <+: n ++ u := by
      have := List.isPrefixOf_iff_prefix.mp hbpre
      rw [List.cons_prefix_cons, List.cons_prefix_cons] at this
      exact this.2.2
    have hbd' : endBoundary ((n ++ u).drop m.length) = true := by
      have hsplit : ('d' :: '.' :: (n ++ u)).drop ('d' :: '.' :: m).length =
          (n ++ u).drop m.length := by
        simp only [List.length_cons, List.drop_succ_cons]
      -- recompute the boundary from the original match fact
      obtain ⟨-, -, hbbd2⟩ := findAlt_mem h2
      rw [hsplit] at hbbd2
      exact hbbd2
    have : m = n :=
      name_eq_token (bare_names_word m hm).2 hnword hu hmpre hbd'
    exact absurd (this ▸ hm) hn

/-- The qualified pattern cannot match starting at a token other than a
lone `d` (its second character `.` is not a word character). -/
theorem findAlt_qual_none_tok {w t : List Char}
    (hword : ∀ c ∈ w, wordChar c = true) (hne : w ≠ []) (hned : w ≠ ['d']) :
    findAlt qualAlts (w ++ t) = none := by
  cases h2 : findAlt qualAlts (w ++ t) with
  | none => rfl
  | some b =>
    exfalso
    obtain ⟨hbmem, hbpre, -⟩ := findAlt_mem h2
    obtain ⟨m, -, rfl⟩ := mem_qualAlts hbmem
    have hpre := List.isPrefixOf_iff_prefix.mp hbpre
    cases w with
    | nil => exact hne rfl
    | cons c w' =>
      cases w' with
      | nil =>
        simp only [List.cons_append, List.nil_append] at hpre
        rw [List.cons_prefix_cons] at hpre
        exact hned (by rw [← hpre.1])
      | cons c2 w'' =>
        simp only [List.cons_append] at hpre
        rw [List.cons_prefix_cons, List.cons_prefix_cons] at hpre
        have hc2 : wordChar c2 = true :=
          hword c2 (List.mem_cons_of_mem c (List.mem_cons_self c2 w''))
        rw [← hpre.2.1] at hc2
        exact absurd hc2 (by decide)

/-- The qualified pattern cannot match `d` followed by anything other
than a dot. -/
theorem findAlt_qual_none_nodot {c : Char} {t : List Char} (hc : c ≠ '.') :
    findAlt qualAlts ('d' :: c :: t) = none := by
  cases h2 : findAlt qualAlts ('d' :: c :: t) with
  | none => rfl
  | some b =>
    exfalso
    obtain ⟨hbmem, hbpre, -⟩ := findAlt_mem h2
    obtain ⟨m, -, rfl⟩ := mem_qualAlts hbmem
    have hpre := List.isPrefixOf_iff_prefix.mp hbpre
    rw [List.cons_prefix_cons, List.cons_prefix_cons] at hpre
    exact hc hpre.2.1.symm

/-- The qualified pattern cannot match `d.` followed by a non-word
character. -/
theorem findAlt_qual_none_sep {c : Char} {t : List Char} (hc : wordChar c = false) :
    findAlt qualAlts ('d' :: '.' :: c :: t) = none := by
  cases h2 : findAlt qualAlts ('d' :: '.' :: c :: t) with
  | none => rfl
  | some b =>
    exfalso
    obtain ⟨hbmem, hbpre, -⟩ := findAlt_mem h2
    obtain ⟨m, hm, rfl⟩ := mem_qualAlts hbmem
    obtain ⟨m0, m', rfl⟩ : ∃ m0 m', m = m0 :: m' := by
      cases m with
      | nil => exact absurd rfl (bare_names_word _ hm).1
      | cons m0 m' => exact ⟨m0, m', rfl⟩
    have hpre := List.isPrefixOf_iff_prefix.mp hbpre
    rw [List.cons_prefix_cons, List.cons_prefix_cons, List.cons_prefix_cons] at hpre
    have hm0 : wordChar m0 = true := (bare_names_word _ hm).2 m0 (by simp)
    rw [hpre.2.2.1] at hm0
    rw [hm0] at hc
    exact absurd hc (by simp)

theorem findAlt_qual_d_nil : findAlt qualAlts ['d'] = none := by decide

theorem findAlt_qual_d_dot_nil : findAlt qualAlts ['d', '.'] = none := by decide

/-! ## Chunk-level characterisation of the two passes -/

/-- What the bare pass does to one token. -/
def bareStep (w : List Char) : List Char :=
  if w ∈ to_be_replaced then 'd' :: w else w

/-- Apply a token transformation to every token of a chunk list. -/
def mapToks (f : List Char → List Char) (l : List Chunk) : List Chunk :=
  l.map fun ch => match ch with
    | .tok w => .tok (f w)
    | .sep c => .sep c

/-- What the qualified pass does: a lone token `d`, followed by a dot,
followed by a catalogue-name token, has a `d` prepended (the replacement
`d\1` re-emits the whole match `d.name` after the marker); scanning
resumes after the consumed match. -/
def qualChunks : List Chunk → List Chunk
  | [] => []
  | .sep c :: r => .sep c :: qualChunks r
  | .tok w :: .sep c :: .tok n :: r =>
    if w = ['d'] ∧ c = '.' ∧ n ∈ to_be_replaced then
      .tok ['d', 'd'] :: .sep c :: .tok n :: qualChunks r
    else .tok w :: qualChunks (.sep c :: .tok n :: r)
  | .tok w :: r => .tok w :: qualChunks r

theorem subAuxF_step_some (alts : List (List Char)) (n : Nat) (c : Char)
    (rest a : List Char) (h : findAlt alts (c :: rest) = some a) :
    subAuxF alts (n + 1) false (c :: rest) =
      'd' :: a ++ subAuxF alts n (wordChar (a.getLastD 'd')) ((c :: rest).drop a.length) := by
  rw [subAuxF_cons_false, h]

theorem subAuxF_step_none (alts : List (List Char)) (n : Nat) (c : Char)
    (rest : List Char) (h : findAlt alts (c :: rest) = none) :
    subAuxF alts (n + 1) false (c :: rest) = c :: subAuxF alts n (wordChar c) rest := by
  rw [subAuxF_cons_false, h]

/-- The bare pass `pattern2.sub` rewrites exactly the tokens that are
catalogue names, prefixing each with `d`. -/
theorem subBare_eq_chunks :
    ∀ (l : List Chunk), validChunks l = true →
      ∀ (fuel : Nat), (render l).length ≤ fuel → ∀ (b : Bool),
        (isTokHead l = true → b = false) →
        subAuxF bareAlts fuel b (render l) = render (mapToks bareStep l) := by
  intro l
  induction l with
  | nil =>
    intro _ fuel _ b _
    exact subAuxF_nil bareAlts fuel b
  | cons ch l' ih =>
    intro hv fuel hfuel b hb
    obtain ⟨hok, hv'⟩ := validChunks_cons hv
    cases ch with
    | sep c =>
      have hc : wordChar c = false := by
        simpa [chunkOk, Bool.not_eq_true'] using hok
      have hlen : (render l').length + 1 ≤ fuel := by
        simpa [render, renderChunk] using hfuel
      obtain ⟨f, rfl⟩ : ∃ f, fuel = f + 1 := ⟨fuel - 1, by omega⟩
      show subAuxF bareAlts (f + 1) b (c :: render l') = _
      rw [subAuxF_nonword bareAlts bareAlts_head_word bareAlts_nonnil f b c (render l') hc,
          ih hv' f (by omega) false (fun _ => rfl)]
      rfl
    | tok w =>
      have hbf : b = false := hb rfl
      subst hbf
      obtain ⟨hne, hword, hnt⟩ := validChunks_tok_head hv
      have hbnd := render_head_boundary hv' hnt
      obtain ⟨c0, w0, rfl⟩ : ∃ c0 w0, w = c0 :: w0 := by
        cases w with
        | nil => exact absurd rfl hne
        | cons c0 w0 => exact ⟨c0, w0, rfl⟩
      have hflen : w0.length + (render l').length + 1 ≤ fuel := by
        simpa [render, renderChunk, List.length_append] using hfuel
      obtain ⟨f, rfl⟩ : ∃ f, fuel = f + 1 := ⟨fuel - 1, by omega⟩
      have hihcond : isTokHead l' = true → true = false := fun h => absurd h (by simp [hnt])
      by_cases hw : (c0 :: w0) ∈ to_be_replaced
      · have hsome : findAlt bareAlts (c0 :: (w0 ++ render l')) = some (c0 :: w0) :=
          findAlt_bare_some hw hbnd
        show subAuxF bareAlts (f + 1) false (c0 :: (w0 ++ render l')) = _
        rw [subAuxF_step_some bareAlts f c0 (w0 ++ render l') (c0 :: w0) hsome]
        have hdrop : (c0 :: (w0 ++ render l')).drop ((c0 :: w0).length) = render l' :=
          List.drop_left (c0 :: w0) (render l')
        rw [hdrop]
        have hlast : wordChar ((c0 :: w0).getLastD 'd') = true :=
          hword _ (getLastD_mem (by simp) 'd')
        rw [hlast, ih hv' f (by omega) true hihcond]
        show 'd' :: (c0 :: w0) ++ render (mapToks bareStep l') =
          bareStep (c0 :: w0) ++ render (mapToks bareStep l')
        rw [bareStep, if_pos hw]
      · have hnone : findAlt bareAlts (c0 :: (w0 ++ render l')) = none :=
          findAlt_bare_none hword hw hbnd
        show subAuxF bareAlts (f + 1) false (c0 :: (w0 ++ render l')) = _
        rw [subAuxF_step_none bareAlts f c0 (w0 ++ render l') hnone]
        have hc0 : wordChar c0 = true := hword c0 (by simp)
        rw [hc0]
        have hf : f = w0.length + (f - w0.length) := by omega
        rw [hf, subAuxF_run bareAlts w0 (fun x hx => hword x (by simp [hx])) (render l')
              (f - w0.length),
            ih hv' (f - w0.length) (by omega) true hihcond]
        show c0 :: (w0 ++ render (mapToks bareStep l')) =
          bareStep (c0 :: w0) ++ render (mapToks bareStep l')
        rw [bareStep, if_neg hw]
        rfl

theorem qualChunks_sep (c : Char) (l : List Chunk) :
    qualChunks (.sep c :: l) = .sep c :: qualChunks l := rfl

theorem qualChunks_trip (w : List Char) (c : Char) (n : List Char) (r : List Chunk) :
    qualChunks (.tok w :: .sep c :: .tok n :: r) =
      if w = ['d'] ∧ c = '.' ∧ n ∈ to_be_replaced then
        .tok ['d', 'd'] :: .sep c :: .tok n :: qualChunks r
      else .tok w :: qualChunks (.sep c :: .tok n :: r) := rfl

/-- The qualified pass leaves a leading token alone when no `d.name`
match starts there. -/
theorem qualChunks_tok_no {w : List Char} {l₂ : List Chunk}
    (h : ∀ c n r, l₂ = .sep c :: .tok n :: r →
      ¬(w = ['d'] ∧ c = '.' ∧ n ∈ to_be_replaced)) :
    qualChunks (.tok w :: l₂) = .tok w :: qualChunks l₂ := by
  cases l₂ with
  | nil => rfl
  | cons ch2 r2 =>
    cases ch2 with
    | tok v => rfl
    | sep c =>
      cases r2 with
      | nil => rfl
      | cons ch3 r3 =>
        cases ch3 with
        | sep c' => rfl
        | tok n => rw [qualChunks_trip, if_neg (h c n r3 rfl)]

/-- The qualified pass `pattern1.sub` rewrites exactly the occurrences
`d.name`: a lone token `d` followed by a dot and a catalogue-name token
becomes `dd` (the marker is prepended to the whole match). -/
theorem subQual_eq_chunks :
    ∀ (N : Nat) (l : List Chunk), l.length ≤ N → validChunks l = true →
      ∀ (fuel : Nat), (render l).length ≤ fuel → ∀ (b : Bool),
        (isTokHead l = true → b = false) →
        subAuxF qualAlts fuel b (render l) = render (qualChunks l) := by
  intro N
  induction N with
  | zero =>
    intro l hlen _ fuel _ b _
    cases l with
    | nil => exact subAuxF_nil qualAlts fuel b
    | cons ch l' => simp at hlen
  | succ N ihN =>
    intro l hlen hv fuel hfuel b hb
    cases l with
    | nil => exact subAuxF_nil qualAlts fuel b
    | cons ch l' =>
      obtain ⟨hok, hv'⟩ := validChunks_cons hv
      cases ch with
      | sep c =>
        have hc : wordChar c = false := by
          simpa [chunkOk, Bool.not_eq_true'] using hok
        have hlenf : (render l').length + 1 ≤ fuel := by
          simpa [render, renderChunk] using hfuel
        obtain ⟨f, rfl⟩ : ∃ f, fuel = f + 1 := ⟨fuel - 1, by omega⟩
        show subAuxF qualAlts (f + 1) b (c :: render l') = _
        rw [subAuxF_nonword qualAlts qualAlts_head_word qualAlts_nonnil f b c (render l') hc,
            ihN l' (by simpa using Nat.le_of_succ_le_succ hlen) hv' f (by omega) false
              (fun _ => rfl)]
        rfl
      | tok w =>
        have hbf : b = false := hb rfl
        subst hbf
        obtain ⟨hne, hword, hnt⟩ := validChunks_tok_head hv
        by_cases hwd : w = ['d']
        · subst hwd
          cases l' with
          | nil =>
            have hlenf : 1 ≤ fuel := by
              simpa [render, renderChunk] using hfuel
            obtain ⟨f, rfl⟩ : ∃ f, fuel = f + 1 := ⟨fuel - 1, by omega⟩
            show subAuxF qualAlts (f + 1) false ('d' :: []) = _
            rw [subAuxF_step_none qualAlts f 'd' [] findAlt_qual_d_nil, subAuxF_nil]
            rfl
          | cons ch2 l'' =>
            cases ch2 with
            | tok v => exact absurd hnt (by simp [isTokHead])
            | sep c2 =>
              have hc2 : wordChar c2 = false := by
                have := (validChunks_cons hv').1
                simpa [chunkOk, Bool.not_eq_true'] using this
              have hv'' := (validChunks_cons hv').2
              by_cases hdot : c2 = '.'
              · subst hdot
                cases l'' with
                | nil =>
                  have hlenf : 2 ≤ fuel := by
                    simpa [render, renderChunk] using hfuel
                  obtain ⟨f, rfl⟩ : ∃ f, fuel = f + 2 := ⟨fuel - 2, by omega⟩
                  show subAuxF qualAlts (f + 1 + 1) false ('d' :: '.' :: []) = _
                  rw [subAuxF_step_none qualAlts (f + 1) 'd' ['.'] findAlt_qual_d_dot_nil]
                  rw [show wordChar 'd' = true from rfl]
                  rw [subAuxF_cons_true, subAuxF_nil]
                  rfl
                | cons ch3 l3 =>
                  cases ch3 with
                  | sep c3 =>
                    have hc3 : wordChar c3 = false := by
                      have := (validChunks_cons hv'').1
                      simpa [chunkOk, Bool.not_eq_true'] using this
                    have hnone : findAlt qualAlts
                        ('d' :: '.' :: c3 :: render l3) = none :=
                      findAlt_qual_none_sep hc3
                    have hlenf : (render l3).length + 3 ≤ fuel := by
                      simpa [render, renderChunk] using hfuel
                    obtain ⟨f, rfl⟩ : ∃ f, fuel = f + 1 := ⟨fuel - 1, by omega⟩
                    show subAuxF qualAlts (f + 1) false ('d' :: '.' :: c3 :: render l3) = _
                    rw [subAuxF_step_none qualAlts f 'd' ('.' :: c3 :: render l3) hnone]
                    rw [show wordChar 'd' = true from rfl]
                    have hrest : subAuxF qualAlts f true ('.' :: c3 :: render l3) =
                        render (qualChunks (.sep '.' :: .sep c3 :: l3)) :=
                      ihN (.sep '.' :: .sep c3 :: l3)
                        (by simpa using Nat.le_of_succ_le_succ hlen) hv' f
                        (by simp only [render, renderChunk]; simp; omega) true
                        (fun h => absurd h (by simp [isTokHead]))
                    rw [hrest]
                    rfl
                  | tok n =>
                    have hvtok := validChunks_tok_head hv''
                    obtain ⟨hnne, hnword, hnt3⟩ := hvtok
                    have hv3 := (validChunks_cons hv'').2
                    have hbnd := render_head_boundary hv3 hnt3
                    have hlenf : n.length + (render l3).length + 2 ≤ fuel := by
                      simpa [render, renderChunk, List.length_append] using hfuel
                    obtain ⟨f, rfl⟩ : ∃ f, fuel = f + 1 := ⟨fuel - 1, by omega⟩
                    have hihc : isTokHead l3 = true → true = false :=
                      fun h => absurd h (by simp [hnt3])
                    by_cases hn : n ∈ to_be_replaced
                    · have hsome : findAlt qualAlts ('d' :: '.' :: (n ++ render l3)) =
                          some ('d' :: '.' :: n) := findAlt_qual_some hn hbnd
                      show subAuxF qualAlts (f + 1) false
                        ('d' :: '.' :: (n ++ render l3)) = _
                      rw [subAuxF_step_some qualAlts f 'd' ('.' :: (n ++ render l3))
                            ('d' :: '.' :: n) hsome]
                      have hdrop : ('d' :: '.' :: (n ++ render l3)).drop
                          (('d' :: '.' :: n).length) = render l3 := drop_two_cons
                      rw [hdrop]
                      have hlast : wordChar (('d' :: '.' :: n).getLastD 'd') = true := by
                        rw [List.getLastD_cons, List.getLastD_cons]
                        exact hnword _ (getLastD_mem hnne '.')
                      rw [hlast,
                          ihN l3 (by simp at hlen ⊢; omega) hv3 f (by omega) true hihc]
                      rw [qualChunks_trip, if_pos ⟨rfl, rfl, hn⟩]
                      rfl
                    · have hnone : findAlt qualAlts ('d' :: '.' :: (n ++ render l3)) =
                          none := findAlt_qual_none_name hnword hn hbnd
                      show subAuxF qualAlts (f + 1) false
                        ('d' :: '.' :: (n ++ render l3)) = _
                      rw [subAuxF_step_none qualAlts f 'd' ('.' :: (n ++ render l3)) hnone]
                      rw [show wordChar 'd' = true from rfl]
                      have hrest : subAuxF qualAlts f true ('.' :: (n ++ render l3)) =
                          render (qualChunks (.sep '.' :: .tok n :: l3)) :=
                        ihN (.sep '.' :: .tok n :: l3)
                          (by simpa using Nat.le_of_succ_le_succ hlen) hv' f
                          (by simp only [render, renderChunk]; simp [List.length_append]; omega)
                          true (fun h => absurd h (by simp [isTokHead]))
                      rw [hrest]
                      rw [qualChunks_trip, if_neg (by rintro ⟨-, -, h⟩; exact hn h)]
                      rfl
              · -- the separator after the `d` token is not a dot
                have hnone : findAlt qualAlts ('d' :: c2 :: render l'') = none :=
                  findAlt_qual_none_nodot hdot
                have hlenf : (render l'').length + 2 ≤ fuel := by
                  simpa [render, renderChunk] using hfuel
                obtain ⟨f, rfl⟩ : ∃ f, fuel = f + 1 := ⟨fuel - 1, by omega⟩
                show subAuxF qualAlts (f + 1) false ('d' :: c2 :: render l'') = _
                rw [subAuxF_step_none qualAlts f 'd' (c2 :: render l'') hnone]
                rw [show wordChar 'd' = true from rfl]
                have hrest : subAuxF qualAlts f true (c2 :: render l'') =
                    render (qualChunks (.sep c2 :: l'')) :=
                  ihN (.sep c2 :: l'') (by simpa using Nat.le_of_succ_le_succ hlen) hv' f
                    (by simp only [render, renderChunk]; simp; omega) true
                    (fun h => absurd h (by simp [isTokHead]))
                rw [hrest]
                rw [qualChunks_tok_no (fun c n r hetok => by
                  rintro ⟨-, hcdot, -⟩
                  rw [List.cons.injEq] at hetok
                  exact hdot ((Chunk.sep.injEq _ _).mp hetok.1 ▸ hcdot))]
                rfl
        · -- token other than a lone `d`: the qualified pattern cannot match
          have hnone : findAlt qualAlts (w ++ render l') = none :=
            findAlt_qual_none_tok hword hne hwd
          obtain ⟨c0, w0, rfl⟩ : ∃ c0 w0, w = c0 :: w0 := by
            cases w with
            | nil => exact absurd rfl hne
            | cons c0 w0 => exact ⟨c0, w0, rfl⟩
          have hlenf : w0.length + (render l').length + 1 ≤ fuel := by
            simpa [render, renderChunk, List.length_append] using hfuel
          obtain ⟨f, rfl⟩ : ∃ f, fuel = f + 1 := ⟨fuel - 1, by omega⟩
          have hnone' : findAlt qualAlts (c0 :: (w0 ++ render l')) = none := hnone
          show subAuxF qualAlts (f + 1) false (c0 :: (w0 ++ render l')) = _
          rw [subAuxF_step_none qualAlts f c0 (w0 ++ render l') hnone']
          have hc0 : wordChar c0 = true := hword c0 (by simp)
          rw [hc0]
          have hf : f = w0.length + (f - w0.length) := by omega
          rw [hf, subAuxF_run qualAlts w0 (fun x hx => hword x (by simp [hx])) (render l')
                (f - w0.length),
              ihN l' (by simpa using Nat.le_of_succ_le_succ hlen) hv' (f - w0.length)
                (by omega) true (fun h => absurd h (by simp [hnt]))]
          rw [qualChunks_tok_no (fun c n r hetok => by
            rintro ⟨hwd', -, -⟩
            exact hwd hwd')]
          rfl

/-! ## Validity is preserved by both chunk-level passes -/

theorem noAdjTok_tok_intro {X : List Chunk} (h1 : isTokHead X = false)
    (h2 : noAdjTok X = true) (w : List Char) : noAdjTok (.tok w :: X) = true := by
  cases X with
  | nil => rfl
  | cons ch r =>
    cases ch with
    | tok v => exact absurd h1 (by simp [isTokHead])
    | sep c => exact h2

theorem validChunks_sep_intro {X : List Chunk} (hc : wordChar c = false)
    (hX : validChunks X = true) : validChunks (.sep c :: X) = true := by
  simp only [validChunks, List.all_cons, Bool.and_eq_true] at hX ⊢
  exact ⟨⟨by simp [chunkOk, hc], hX.1⟩, by rw [noAdjTok_cons_sep]; exact hX.2⟩

theorem validChunks_tok_intro {w : List Char} {X : List Chunk}
    (hw : chunkOk (.tok w) = true) (h1 : isTokHead X = false)
    (hX : validChunks X = true) : validChunks (.tok w :: X) = true := by
  simp only [validChunks, List.all_cons, Bool.and_eq_true] at hX ⊢
  exact ⟨⟨hw, hX.1⟩, noAdjTok_tok_intro h1 hX.2 w⟩

theorem isTokHead_qualChunks : ∀ l : List Chunk, isTokHead (qualChunks l) = isTokHead l := by
  intro l
  cases l with
  | nil => rfl
  | cons ch l' =>
    cases ch with
    | sep c => rw [qualChunks_sep]; rfl
    | tok w =>
      cases l' with
      | nil => rfl
      | cons ch2 r2 =>
        cases ch2 with
        | tok v => rfl
        | sep c =>
          cases r2 with
          | nil => rfl
          | cons ch3 r3 =>
            cases ch3 with
            | sep c' => rfl
            | tok n =>
              rw [qualChunks_trip]
              by_cases h : w = ['d'] ∧ c = '.' ∧ n ∈ to_be_replaced
              · rw [if_pos h]; rfl
              · rw [if_neg h]; rfl

theorem validChunks_qualChunks :
    ∀ (N : Nat) (l : List Chunk), l.length ≤ N → validChunks l = true →
      validChunks (qualChunks l) = true := by
  intro N
  induction N with
  | zero =>
    intro l hlen hv
    cases l with
    | nil => exact hv
    | cons ch l' => simp at hlen
  | succ N ihN =>
    intro l hlen hv
    cases l with
    | nil => exact hv
    | cons ch l' =>
      obtain ⟨hok, hv'⟩ := validChunks_cons hv
      cases ch with
      | sep c =>
        rw [qualChunks_sep]
        have hc : wordChar c = false := by
          simpa [chunkOk, Bool.not_eq_true'] using hok
        exact validChunks_sep_intro hc
          (ihN l' (by simpa using Nat.le_of_succ_le_succ hlen) hv')
      | tok w =>
        obtain ⟨hne, hword, hnt⟩ := validChunks_tok_head hv
        by_cases htrip : ∃ c n r, l' = .sep c :: .tok n :: r ∧
            w = ['d'] ∧ c = '.' ∧ n ∈ to_be_replaced
        · obtain ⟨c, n, r, rfl, rfl, rfl, hn⟩ := htrip
          rw [qualChunks_trip, if_pos ⟨rfl, rfl, hn⟩]
          have hv'' := (validChunks_cons hv').2
          obtain ⟨hokn, hvr⟩ := validChunks_cons hv''
          have hntr := (validChunks_tok_head hv'').2.2
          apply validChunks_tok_intro (by decide) (by simp [isTokHead])
          apply validChunks_sep_intro (by decide)
          apply validChunks_tok_intro hokn
          · rw [isTokHead_qualChunks]; exact hntr
          · exact ihN r (by simp at hlen ⊢; omega) hvr
        · rw [qualChunks_tok_no (fun c n r heq => by
            intro hcond
            exact htrip ⟨c, n, r, heq, hcond⟩)]
          apply validChunks_tok_intro hok
          · rw [isTokHead_qualChunks]; exact hnt
          · exact ihN l' (by simpa using Nat.le_of_succ_le_succ hlen) hv'

theorem noAdjTok_mapToks (f : List Char → List Char) :
    ∀ l : List Chunk, noAdjTok (mapToks f l) = noAdjTok l := by
  intro l
  induction l with
  | nil => rfl
  | cons ch l' ih =>
    cases l' with
    | nil => cases ch <;> rfl
    | cons ch2 r =>
      cases ch with
      | tok w => cases ch2 with
        | tok v => rfl
        | sep c => exact ih
      | sep c => cases ch2 with
        | tok v => exact ih
        | sep c' => exact ih

theorem bareStep_chunkOk {w : List Char} (h : chunkOk (.tok w) = true) :
    chunkOk (.tok (bareStep w)) = true := by
  rw [bareStep]
  by_cases hw : w ∈ to_be_replaced
  · rw [if_pos hw]
    simp only [chunkOk, Bool.and_eq_true, List.all_eq_true] at h ⊢
    refine ⟨by simp, fun c hc => ?_⟩
    rcases List.mem_cons.mp hc with h' | h'
    · subst h'; rfl
    · exact h.2 c h'
  · rw [if_neg hw]; exact h

theorem validChunks_mapToks {l : List Chunk} (hv : validChunks l = true) :
    validChunks (mapToks bareStep l) = true := by
  simp only [validChunks, Bool.and_eq_true, List.all_eq_true] at hv ⊢
  constructor
  · intro ch hch
    simp only [mapToks, List.mem_map] at hch
    obtain ⟨ch0, hch0, rfl⟩ := hch
    cases ch0 with
    | tok w => exact bareStep_chunkOk (hv.1 _ hch0)
    | sep c => exact hv.1 _ hch0
  · rw [noAdjTok_mapToks]
    exact hv.2

/-! ## The complete rewrite, token by token -/

/-- The two-pass rewrite acts on the token decomposition: first the
qualified pass rewrites `d`-tokens of `d.name` occurrences, then the bare
pass rewrites every catalogue-name token. -/
theorem rewrite_eq_chunks (s : List Char) :
    sub2 (sub1 s) = render (mapToks bareStep (qualChunks (parseChunks s))) := by
  have hP := validChunks_parseChunks s
  have h1 : sub1 s = render (qualChunks (parseChunks s)) := by
    have h := subQual_eq_chunks (parseChunks s).length (parseChunks s) le_rfl hP
      s.length (by rw [render_parseChunks]) false (fun _ => rfl)
    rw [render_parseChunks] at h
    exact h
  have hQ : validChunks (qualChunks (parseChunks s)) = true :=
    validChunks_qualChunks (parseChunks s).length (parseChunks s) le_rfl hP
  have h2 : sub2 (render (qualChunks (parseChunks s))) =
      render (mapToks bareStep (qualChunks (parseChunks s))) :=
    subBare_eq_chunks _ hQ _ le_rfl false (fun _ => rfl)
  rw [h1, h2]

/-- No token of a rewritten text is a catalogue name. -/
def catalogFree (l : List Chunk) : Prop :=
  ∀ w, Chunk.tok w ∈ l → w ∉ to_be_replaced

theorem d_prefix_not_catalog : ∀ n ∈ to_be_replaced, ('d' :: n) ∉ to_be_replaced := by
  decide

theorem bareStep_notin (w : List Char) : bareStep w ∉ to_be_replaced := by
  rw [bareStep]
  by_cases h : w ∈ to_be_replaced
  · rw [if_pos h]
    exact d_prefix_not_catalog w h
  · rw [if_neg h]
    exact h

theorem catalogFree_mapToks (l : List Chunk) : catalogFree (mapToks bareStep l) := by
  intro w hw
  simp only [mapToks, List.mem_map] at hw
  obtain ⟨ch0, -, heq⟩ := hw
  cases ch0 with
  | tok v =>
    have : w = bareStep v := by
      simpa using heq.symm
    rw [this]
    exact bareStep_notin v
  | sep c => exact absurd heq (by simp)

theorem qualChunks_eq_self : ∀ l : List Chunk, catalogFree l → qualChunks l = l := by
  intro l
  induction l with
  | nil => intro _; rfl
  | cons ch l' ih =>
    intro hfree
    have hfree' : catalogFree l' := fun w hw => hfree w (List.mem_cons_of_mem ch hw)
    cases ch with
    | sep c => rw [qualChunks_sep, ih hfree']
    | tok w =>
      rw [qualChunks_tok_no (fun c n r heq => by
        rintro ⟨-, -, hn⟩
        have : Chunk.tok n ∈ Chunk.tok w :: l' := by
          rw [heq]
          exact List.mem_cons_of_mem _ (List.mem_cons_of_mem _ (List.mem_cons_self _ _))
        exact hfree n this hn), ih hfree']

theorem mapToks_eq_self : ∀ l : List Chunk, catalogFree l → mapToks bareStep l = l := by
  intro l
  induction l with
  | nil => intro _; rfl
  | cons ch l' ih =>
    intro hfree
    have hfree' : catalogFree l' := fun w hw => hfree w (List.mem_cons_of_mem ch hw)
    cases ch with
    | sep c =>
      show Chunk.sep c :: mapToks bareStep l' = _
      rw [ih hfree']
    | tok w =>
      show Chunk.tok (bareStep w) :: mapToks bareStep l' = _
      rw [ih hfree', bareStep, if_neg (hfree w (List.mem_cons_self _ _))]

/-- C2: the rewrite is idempotent — applying the two-pass substitution to
an already-rewritten text changes nothing, because every token of the
output is either an untouched non-catalogue identifier, a marker-prefixed
name `dname`, or the doubled marker `dd`, none of which is a catalogue
name, and hence neither pattern can match again. -/
theorem c2_rewrite_idempotent (s : String) :
    migrateText (migrateText s) = migrateText s := by
  apply String.ext
  show sub2 (sub1 (migrateText s).data) = (migrateText s).data
  have hout : (migrateText s).data =
      render (mapToks bareStep (qualChunks (parseChunks s.data))) :=
    rewrite_eq_chunks s.data
  set R := mapToks bareStep (qualChunks (parseChunks s.data)) with hR
  have hvR : validChunks R = true :=
    validChunks_mapToks (validChunks_qualChunks _ _ le_rfl (validChunks_parseChunks s.data))
  have hfree : catalogFree R := catalogFree_mapToks _
  rw [hout, rewrite_eq_chunks (render R), parseChunks_render hvR,
      qualChunks_eq_self R hfree, mapToks_eq_self R hfree]

/-! ## C8: tokens that are not exactly a catalogue name survive unchanged -/

theorem mapToks_get_tok {l : List Chunk} {i : Nat} {w : List Char}
    (h : l[i]? = some (.tok w)) :
    (mapToks bareStep l)[i]? = some (.tok (bareStep w)) := by
  rw [mapToks, List.getElem?_map, h]
  rfl

/-- The qualified pass keeps every token other than a lone `d` in place,
unchanged. -/
theorem qualChunks_get_tok :
    ∀ (N : Nat) (l : List Chunk), l.length ≤ N → ∀ (i : Nat) (w : List Char),
      l[i]? = some (.tok w) → w ≠ ['d'] →
      (qualChunks l)[i]? = some (.tok w) := by
  intro N
  induction N with
  | zero =>
    intro l hlen i w h _
    cases l with
    | nil => simp at h
    | cons ch l' => simp at hlen
  | succ N ihN =>
    intro l hlen i w h hwd
    cases l with
    | nil => simp at h
    | cons ch l' =>
      cases ch with
      | sep c =>
        rw [qualChunks_sep]
        cases i with
        | zero => simp at h
        | succ i' =>
          rw [List.getElem?_cons_succ] at h ⊢
          exact ihN l' (by simpa using Nat.le_of_succ_le_succ hlen) i' w h hwd
      | tok w0 =>
        by_cases htrip : ∃ c n r, l' = .sep c :: .tok n :: r ∧
            w0 = ['d'] ∧ c = '.' ∧ n ∈ to_be_replaced
        · obtain ⟨c, n, r, rfl, rfl, rfl, hn⟩ := htrip
          rw [qualChunks_trip, if_pos ⟨rfl, rfl, hn⟩]
          match i with
          | 0 =>
            rw [List.getElem?_cons_zero] at h
            exact absurd ((by simpa using h : (['d'] : List Char) = w)).symm hwd
          | 1 => simp at h
          | 2 => simpa using h
          | (i' + 3) =>
            rw [show ((i' + 3 : Nat)) = i' + 1 + 1 + 1 from rfl] at h ⊢
            rw [List.getElem?_cons_succ, List.getElem?_cons_succ,
                List.getElem?_cons_succ] at h ⊢
            exact ihN r (by simp at hlen ⊢; omega) i' w h hwd
        · rw [qualChunks_tok_no (fun c n r heq => by
            intro hcond
            exact htrip ⟨c, n, r, heq, hcond⟩)]
          cases i with
          | zero => simpa using h
          | succ i' =>
            rw [List.getElem?_cons_succ] at h ⊢
            exact ihN l' (by simpa using Nat.le_of_succ_le_succ hlen) i' w h hwd

/-- C8: an identifier token that merely contains a legacy name as a proper
substring — without itself being a catalogue name — is never rewritten by
either pass: it reappears unchanged, at the same position of the token
decomposition, in the rewritten text.  (Only occurrences that form a whole
token, i.e. are bounded by non-identifier characters or the ends of the
text, are ever replaced.) -/
theorem c8_boundary_respect (s : String) (i : Nat) (w : List Char)
    (hw : (parseChunks s.data)[i]? = some (.tok w))
    (hmerely : w ∉ to_be_replaced)
    (hcontains : ∃ n ∈ to_be_replaced, n ≠ w ∧ n <:+: w) :
    (parseChunks (migrateText s).data)[i]? = some (.tok w) := by
  have hout : (migrateText s).data =
      render (mapToks bareStep (qualChunks (parseChunks s.data))) :=
    rewrite_eq_chunks s.data
  have hvR : validChunks (mapToks bareStep (qualChunks (parseChunks s.data))) = true :=
    validChunks_mapToks
      (validChunks_qualChunks _ _ le_rfl (validChunks_parseChunks s.data))
  rw [hout, parseChunks_render hvR]
  have hwd : w ≠ ['d'] := by
    obtain ⟨n, hn, hne, hinf⟩ := hcontains
    intro hweq
    subst hweq
    obtain ⟨u, v, huv⟩ := hinf
    have hlen := congrArg List.length huv
    simp only [List.length_append, List.length_cons, List.length_nil] at hlen
    have hnne : n ≠ [] := (bare_names_word n hn).1
    have hn1 : 1 ≤ n.length := by
      cases n with
      | nil => exact absurd rfl hnne
      | cons a b => simp
    have hu0 : u.length = 0 := by omega
    have hv0 : v.length = 0 := by omega
    rw [List.length_eq_zero.mp hu0, List.length_eq_zero.mp hv0] at huv
    simp only [List.nil_append, List.append_nil] at huv
    exact hne (huv.trans rfl)
  have hq := qualChunks_get_tok (parseChunks s.data).length (parseChunks s.data)
    le_rfl i w hw hwd
  have hm := mapToks_get_tok hq
  rwa [bareStep, if_neg hmerely] at hm

/-- Witness for C8: `center` occurs inside the longer identifier
`recentered`, which is left untouched. -/
theorem c8_boundary_respect_witness :
    (parseChunks ("a.recentered = 1" : String).data)[2]? =
        some (.tok "recentered".data) ∧
    (parseChunks (migrateText "a.recentered = 1").data)[2]? =
        some (.tok "recentered".data) :=
  ⟨by decide,
    c8_boundary_respect "a.recentered = 1" 2 "recentered".data (by decide) (by decide)
      ⟨"center".data, by decide, by decide, "re".data, "ed".data, by decide⟩⟩

/-! ## The per-file driver of the `migrate` command

Paths are modelled as plain strings; `pathlib.Path.resolve()` is modelled
as prefixing the current working directory to a relative path (`..`
normalisation plays no role in the claims).  Console and file-system side
effects are recorded as a trace of `Effect`s in program order. -/

/-- `Path.resolve()`. -/
def resolvePath (cwd p : String) : String :=
  if p.data.headD ' ' = '/' then p else cwd ++ "/" ++ p

/-- `Path.name`: final path component. -/
def basename (p : String) : String := (p.splitOn "/").getLastD p

/-- `path / name`. -/
def joinPath (p name : String) : String := p ++ "/" ++ name

/-- One observable side effect of the driver: writing a destination file,
printing the `Updated ...` notice, or printing a diff report.
`diffReport` records the two element sequences handed to
`difflib.unified_diff` (lists of lines — or of single characters, when the
code passes the raw strings) and the two file labels. -/
inductive Effect : Type where
  | write (path : String) (content : String)
  | notice (path : String)
  | diffReport (a b : List (List Char)) (fromLabel toLabel : String)
deriving DecidableEq

/-- Python `str.splitlines()` for `\n`-separated text: the list of lines
without their terminators; a trailing newline does not produce a final
empty line. -/
def splitlines (s : String) : List (List Char) :=
  let parts := s.data.splitOn '\n'
  if parts.getLast? = some [] then parts.dropLast else parts

/-- The element sequence `difflib` sees when handed a raw string: its
characters. -/
def charSeq (s : String) : List (List Char) := s.data.map (fun c => [c])

/-- Lines 176–180 of `cli.py`: `input.resolve()` has been applied by the
caller; a missing output path is an error unless `--inplace` is set, in
which case the input path is used.  An explicitly given output path is
taken as-is (the result of `output.resolve()` on line 180 is discarded by
the code). -/
def resolveOutput (input : String) (output : Option String) (inplace : Bool) :
    Except String String :=
  match output with
  | none =>
    if inplace then .ok input
    else .error "If inplace is not set, an output directory must be set."
  | some o => .ok o

/-- Lines 188–196: adjust the output path for a single-file input:
an existing directory or a non-`.py` target receives the input's file
name. -/
def adjustSingleOutput (input output : String) (outputIsDir : Bool) : String :=
  if outputIsDir then joinPath output (basename input)
  else if (".py".data).isSuffixOf output.data then output
  else joinPath output (basename input)

/-- Lines 197–228: process a single input file.  In place
(`output == input`) the file is written, and the notice and diff emitted,
only when the rewrite changed the text; the diff compares the texts line
by line with resolved path labels.  With a distinct destination the
rewritten text is always written, the notice and diff appear only on
change — and the diff is handed the raw strings (character sequences) with
the unresolved path labels. -/
def processSingleFile (cwd input output content : String) : List Effect :=
  let newContent := migrateText content
  if output = input then
    if content ≠ newContent then
      [.write output newContent, .notice output,
       .diffReport (splitlines content) (splitlines newContent)
         (resolvePath cwd input) (resolvePath cwd output)]
    else []
  else
    .write output newContent ::
      (if content ≠ newContent then
        [.notice output,
         .diffReport (charSeq content) (charSeq newContent) input output]
      else [])

/-- Lines 229–275: process one file of a directory tree.  `same` is
whether the (global) output directory equals the input directory: when
they differ every file is written; when they coincide a file is written
only when changed.  Notice and diff are emitted only on change, the diff
comparing line by line with resolved labels. -/
def processTreeFile (cwd : String) (same : Bool) (inp out content : String) : List Effect :=
  let newContent := migrateText content
  if same then
    if content ≠ newContent then
      [.write out newContent, .notice out,
       .diffReport (splitlines content) (splitlines newContent)
         (resolvePath cwd inp) (resolvePath cwd out)]
    else []
  else
    .write out newContent ::
      (if content ≠ newContent then
        [.notice out,
         .diffReport (splitlines content) (splitlines newContent)
           (resolvePath cwd inp) (resolvePath cwd out)]
      else [])

/-- The directory walk (`for inp in input.rglob("*.py")`): files are
processed in order; a file whose content cannot be decoded (`none`) makes
`open(...).read()` raise `UnicodeDecodeError`, which propagates out of the
unguarded loop: the failing file and every file after it are not
processed.  The result is the trace of effects performed before the
failure, and the failing path, if any. -/
def migrateTree (cwd : String) (same : Bool) :
    List (String × String × Option String) → List Effect × Option String
  | [] => ([], none)
  | (inp, _, none) :: _ => ([], some inp)
  | (inp, out, some content) :: rest =>
    let r := migrateTree cwd same rest
    (processTreeFile cwd same inp out content ++ r.1, r.2)

def isWrite : Effect → Bool
  | .write _ _ => true
  | _ => false

def isNotice : Effect → Bool
  | .notice _ => true
  | _ => false

def isDiff : Effect → Bool
  | .diffReport _ _ _ _ => true
  | _ => false

/-! ## Claims about the driver -/

/-- C3: for every file task, with destination equal to the source the file
is written only if the rewrite changed the text, with a distinct
destination the rewritten text is always written; in both cases (and in
both the single-file and the directory branches) the update notice and the
diff are emitted exactly when the text changed. -/
theorem c3_write_asymmetry (cwd input output inp out content : String) :
    (output = input →
      ((processSingleFile cwd input output content).any isWrite = true ↔
        content ≠ migrateText content)) ∧
    (output ≠ input → (processSingleFile cwd input output content).any isWrite = true) ∧
    ((processSingleFile cwd input output content).any isNotice = true ↔
      content ≠ migrateText content) ∧
    ((processSingleFile cwd input output content).any isDiff = true ↔
      content ≠ migrateText content) ∧
    ((processTreeFile cwd true inp out content).any isWrite = true ↔
      content ≠ migrateText content) ∧
    ((processTreeFile cwd false inp out content).any isWrite = true) ∧
    (∀ same : Bool,
      ((processTreeFile cwd same inp out content).any isNotice = true ↔
        content ≠ migrateText content) ∧
      ((processTreeFile cwd same inp out content).any isDiff = true ↔
        content ≠ migrateText content)) := by
  by_cases hch : content = migrateText content
  · refine ⟨?_, ?_, ?_, ?_, ?_, ?_, ?_⟩
    · intro heq
      subst heq
      simp [processSingleFile, ← hch, isWrite]
    · intro hne
      simp [processSingleFile, if_neg hne, ← hch, isWrite]
    · by_cases heq : output = input <;>
        simp [processSingleFile, heq, ← hch, isNotice, isWrite]
    · by_cases heq : output = input <;>
        simp [processSingleFile, heq, ← hch, isDiff, isWrite]
    · simp [processTreeFile, ← hch, isWrite]
    · simp [processTreeFile, ← hch, isWrite]
    · intro same
      cases same <;>
        constructor <;>
          simp [processTreeFile, ← hch, isNotice, isDiff, isWrite]
  · refine ⟨?_, ?_, ?_, ?_, ?_, ?_, ?_⟩
    · intro heq
      subst heq
      simp [processSingleFile, hch, isWrite]
    · intro hne
      simp [processSingleFile, if_neg hne, isWrite]
    · by_cases heq : output = input <;>
        simp [processSingleFile, heq, hch, isNotice, isWrite, isDiff]
    · by_cases heq : output = input <;>
        simp [processSingleFile, heq, hch, isNotice, isWrite, isDiff]
    · simp [processTreeFile, hch, isWrite, isNotice, isDiff]
    · simp [processTreeFile, hch, isWrite]
    · intro same
      cases same <;>
        constructor <;>
          simp [processTreeFile, hch, isNotice, isDiff, isWrite]

/-- Witness for C3 at a changed file processed in place. -/
theorem c3_write_asymmetry_witness :
    ("/w/a.py" : String) = "/w/a.py" ∧
    ("a = p.center" : String) ≠ migrateText "a = p.center" ∧
    (processSingleFile "/w" "/w/a.py" "/w/a.py" "a = p.center").any isWrite = true :=
  ⟨rfl, by decide,
    ((c3_write_asymmetry "/w" "/w/a.py" "/w/a.py" "x" "y" "a = p.center").1 rfl).mpr
      (by decide)⟩

/-- C4 counterexample: a directory run whose first file is undecodable
aborts at once — the second (perfectly readable) file is never processed
and nothing is aggregated, contradicting the claim that other files
continue and failures are reported together at the end. -/
theorem c4_counterexample_abort_on_first :
    migrateTree "/w" false
      [("/in/a.py", "/out/a.py", none), ("/in/b.py", "/out/b.py", some "a = p.center\n")] =
      ([], some "/in/a.py") ∧
    (migrateTree "/w" false
      [("/in/a.py", "/out/a.py", none),
       ("/in/b.py", "/out/b.py", some "a = p.center\n")]).1.any isWrite = false :=
  ⟨rfl, rfl⟩

/-- C4 (amended): the decode error propagates out of the unguarded loop:
the failing file and everything after it are skipped, while files before
it have already been processed normally; there is no aggregation. -/
theorem c4_amended_abort_semantics (cwd : String) (same : Bool) (inp out : String)
    (rest : List (String × String × Option String)) :
    migrateTree cwd same ((inp, out, none) :: rest) = ([], some inp) ∧
    ∀ (inp' out' content : String) (rest' : List (String × String × Option String)),
      migrateTree cwd same ((inp', out', some content) :: rest') =
        (processTreeFile cwd same inp' out' content ++ (migrateTree cwd same rest').1,
          (migrateTree cwd same rest').2) :=
  ⟨rfl, fun _ _ _ _ => rfl⟩

/-- C5: contrary to the help text (`"If inplace is set, this argument will
be ignored"`), an explicitly supplied output path is *used*: the code only
substitutes the input path when no output was given at all, so with
`--inplace` and an explicit output the destination differs from the
source. -/
theorem c5_inplace_does_not_ignore_output :
    resolveOutput "/w/in.py" (some "/w/out.py") true = Except.ok "/w/out.py" ∧
    ("/w/out.py" : String) ≠ "/w/in.py" :=
  ⟨rfl, by decide⟩

/-- C6: `output.resolve()` on line 180 discards its result, so a relative
output path stays relative: the file is written to the unresolved path and
the `+++` diff label of the single-file distinct-destination branch is the
unresolved path, not its absolute form. -/
theorem c6_output_path_not_resolved :
    adjustSingleOutput "/w/a.py" "b.py" false = "b.py" ∧
    processSingleFile "/w" "/w/a.py" "b.py" "a = p.center\n" =
      [.write "b.py" "a = p.dcenter\n", .notice "b.py",
       .diffReport (charSeq "a = p.center\n") (charSeq "a = p.dcenter\n")
         "/w/a.py" "b.py"] ∧
    resolvePath "/w" "b.py" = "/w/b.py" ∧
    ("b.py" : String) ≠ "/w/b.py" := by
  exact ⟨by decide, by decide, by decide, by decide⟩

/-- C7: in the single-file distinct-destination branch the code hands the
raw strings (not `splitlines()` lists) to `difflib.unified_diff`, so the
diff is computed character by character there, while the directory
branches compare line by line. -/
theorem c7_diff_charwise_in_single_branch :
    processSingleFile "/w" "/w/a.py" "/w/b.py" "a = p.center\n" =
      [.write "/w/b.py" "a = p.dcenter\n", .notice "/w/b.py",
       .diffReport (charSeq "a = p.center\n") (charSeq "a = p.dcenter\n")
         "/w/a.py" "/w/b.py"] ∧
    charSeq "a = p.center\n" ≠ splitlines "a = p.center\n" ∧
    processTreeFile "/w" false "/w/a.py" "/o/a.py" "a = p.center\n" =
      [.write "/o/a.py" "a = p.dcenter\n", .notice "/o/a.py",
       .diffReport (splitlines "a = p.center\n") (splitlines "a = p.dcenter\n")
         "/w/a.py" "/o/a.py"] := by
  exact ⟨by decide, by decide, by decide⟩
